import Mathlib

/-!
# Verification of the constrained convex-optimization core

Shallow embedding, over exact rational arithmetic, of the numerical kernel of the
repository: the L1-ball projector `project_onto_l1_ball`, the robust-loss gradient
oracle `huber_gradient`, the projected-gradient loop `gradient_descent` (all from
`sudoku.ipynb`), and the objectives and iteration of the two-block ADMM consensus
loop (from `admm.ipynb`).  Vectors are `List ℚ`, matrices `List (List ℚ)` (rows).
Fallible operations (a NumPy fancy-indexing step that can raise `IndexError`, an
external sub-solver that can fail) are modelled with `Option`.
-/

/-! ## Basic vector and matrix operations -/

/-- Elementwise subtraction of vectors (NumPy `a - b`). -/
def vsub (a b : List ℚ) : List ℚ := List.zipWith (fun x y => x - y) a b

/-- Elementwise addition of vectors (NumPy `a + b`). -/
def vadd (a b : List ℚ) : List ℚ := List.zipWith (fun x y => x + y) a b

/-- Scalar multiple of a vector (NumPy `c * v`). -/
def smul (c : ℚ) (v : List ℚ) : List ℚ := v.map (fun x => c * x)

/-- Elementwise division of a vector by a scalar (NumPy `v / c`). -/
def vdiv (v : List ℚ) (c : ℚ) : List ℚ := v.map (fun x => x / c)

/-- The L1 norm `‖v‖₁ = Σ |v i|` (NumPy `np.linalg.norm(v, 1)`). -/
def norm1 (v : List ℚ) : ℚ := (v.map (fun a => |a|)).sum

/-- The squared L2 norm `Σ (v i)²` (`cp.sum_squares`); the source compares the
L2 norm itself, see `l2normLt`. -/
def norm2sq (v : List ℚ) : ℚ := (v.map (fun a => a ^ 2)).sum

/-- `np.sign`: `1` on positives, `-1` on negatives, `0` at `0`. -/
def signq (a : ℚ) : ℚ := if 0 < a then 1 else if a < 0 then -1 else 0

/-- Dot product of two vectors. -/
def dotQ (a b : List ℚ) : ℚ := (List.zipWith (fun x y => x * y) a b).sum

/-- Matrix–vector product `A @ x`, with `A` given by rows. -/
def matVec (A : List (List ℚ)) (x : List ℚ) : List ℚ := A.map (fun row => dotQ row x)

/-- The comparison `‖v‖₂ < t` of the source, decided exactly over `ℚ`:
for `t > 0` it is equivalent to `Σ v i² < t²`, and for `t ≤ 0` it is false
since `‖v‖₂ ≥ 0`.  This avoids the (irrational) square root while deciding
exactly the same predicate the source's real-valued comparison denotes. -/
def l2normLt (v : List ℚ) (t : ℚ) : Bool := decide (0 < t ∧ norm2sq v < t ^ 2)

/-! ## L1-ball projector (`project_onto_l1_ball`, sudoku.ipynb) -/

/-- Descending sort (`np.sort(u)[::-1]`). -/
def sortDesc (u : List ℚ) : List ℚ := u.insertionSort (fun a b => a ≥ b)

/-- 1-based element access `s[i]` (`s` 0-based in the source: `s[i-1]`), with the
out-of-range default `0`; `qualList` only applies it in range. -/
def elem1 (s : List ℚ) (i : ℕ) : ℚ := s.getD (i - 1) 0

/-- 1-based running sum: `cums s i = s[1] + ⋯ + s[i]` (`np.cumsum(s)[i-1]`). -/
def cums (s : List ℚ) (i : ℕ) : ℚ := (s.take i).sum

/-- The test `cond[i] = (s[i] - cssv[i]/i > 0)` of the source, at 1-based `i`,
where `cssv[i] = cums s i - N`. -/
def condB (s : List ℚ) (N : ℚ) (i : ℕ) : Bool :=
  decide (elem1 s i - (cums s i - N) / (i : ℚ) > 0)

/-- The list of triples `(s[i], cssv[i], i)` over the qualifying 1-based indices
`i ∈ {1..n}` with `cond[i]` true — the data the source reads off as
`ind[cond]` and `cssv[cond]`. -/
def qualList (s : List ℚ) (N : ℚ) : List (ℚ × ℚ × ℕ) :=
  ((List.range s.length).map (fun i => i + 1)).filterMap
    (fun i => if condB s N i then some (elem1 s i, cums s i - N, i) else none)

/-- `project_onto_l1_ball(x, N)` from `sudoku.ipynb`.  The `none` case is the
`IndexError` NumPy raises at `ind[cond][-1]` when no index qualifies; the source
performs no explicit validation of `N`.  `rho = ind[cond][-1]`,
`theta = cssv[cond][-1] / rho`, and the output is
`np.sign(x) * np.maximum(u - theta, 0)`. -/
def project_onto_l1_ball (x : List ℚ) (N : ℚ) : Option (List ℚ) :=
  if norm1 x ≤ N then some x
  else
    let u := x.map (fun a => |a|)
    if u.sum ≤ N then some x
    else
      let s := sortDesc u
      match (qualList s N).getLast? with
      | none => none
      | some t =>
          some (x.map (fun a => signq a * max (|a| - t.2.1 / (t.2.2 : ℚ)) 0))

/-! ## Robust-loss gradient oracle (`huber_gradient`, sudoku.ipynb) -/

/-- The elementwise branch `np.where(np.abs(r) <= 1, 2 * r, 2 * np.sign(r))`. -/
def hprime (u : ℚ) : ℚ := if |u| ≤ 1 then 2 * u else 2 * signq u

/-- `huber_gradient(A, x, y) = A.T @ np.where(|A@x - y| <= 1, 2*(A@x - y), 2*sign(A@x - y))`. -/
def huber_gradient (A : List (List ℚ)) (x y : List ℚ) : List ℚ :=
  matVec (List.transpose A) ((vsub (matVec A x) y).map hprime)

/-! ## Projected gradient solver (`gradient_descent`, sudoku.ipynb) -/

/-- Terminal/initial states of the projected-gradient state machine. -/
inductive GDState where
  | Running : GDState
  | Converged : GDState
  | BudgetExhausted : GDState
deriving DecidableEq

/-- The loop body of `gradient_descent`: per remaining budget `fuel` with current
iteration counter `k` and iterate `x`, compute the gradient, take the fixed step,
project, and test `‖grad‖₂ < tolerance` on the pre-step gradient; on test success
stop with `Converged` at count `k`, on exhausted budget return the last iterate
with `BudgetExhausted`.  A projection failure (`none`) propagates. -/
def gdLoop (A : List (List ℚ)) (y : List ℚ) (step_size tolerance N : ℚ) :
    ℕ → ℕ → List ℚ → Option (List ℚ × ℕ × GDState)
  | 0, k, x => some (x, k, GDState.BudgetExhausted)
  | fuel + 1, k, x =>
      let grad := huber_gradient A x y
      match project_onto_l1_ball (vsub x (smul step_size grad)) N with
      | none => none
      | some xp =>
          if l2normLt grad tolerance then some (xp, k, GDState.Converged)
          else gdLoop A y step_size tolerance N fuel (k + 1) xp

/-- `gradient_descent(A, x, y, step_size, max_iters, tolerance)` from `sudoku.ipynb`;
`N` is the module-level constant the source closes over.  Returns the final
iterate together with the iteration count and terminal state. -/
def gradient_descent (A : List (List ℚ)) (x y : List ℚ)
    (step_size : ℚ) (max_iters : ℕ) (tolerance N : ℚ) :
    Option (List ℚ × ℕ × GDState) :=
  gdLoop A y step_size tolerance N max_iters 0 x

/-- The per-iteration map of the solver: gradient step followed by projection.
When `0 < N` the projection always succeeds and the `getD` default is never
taken (`project_isSome_of_pos`). -/
def gdStep (A : List (List ℚ)) (y : List ℚ) (step_size N : ℚ) (x : List ℚ) : List ℚ :=
  (project_onto_l1_ball (vsub x (smul step_size (huber_gradient A x y))) N).getD x

/-- The iterate sequence `x₀, x₁, …` generated by `gdStep`. -/
def gdIter (A : List (List ℚ)) (y : List ℚ) (step_size N : ℚ) (x0 : List ℚ) (k : ℕ) :
    List ℚ :=
  (gdStep A y step_size N)^[k] x0

/-- The convergence test of the source at an iterate `x`: `‖∇(x)‖₂ < tolerance`
on the pre-step, pre-projection gradient. -/
def gdConv (A : List (List ℚ)) (y : List ℚ) (tolerance : ℚ) (x : List ℚ) : Prop :=
  l2normLt (huber_gradient A x y) tolerance = true

instance (A : List (List ℚ)) (y : List ℚ) (tolerance : ℚ) :
    DecidablePred (gdConv A y tolerance) := by
  intro x; unfold gdConv; infer_instance

/-! ## ADMM consensus solver (admm.ipynb) -/

/-- `f = lambda w_tilde: cp.sum_squares(A @ w_tilde - b) / 2` from the source. -/
def admm_f (A : List (List ℚ)) (b : List ℚ) (wt : List ℚ) : ℚ :=
  norm2sq (vsub (matVec A wt) b) / 2

/-- `g = lambda w: cp.sum_squares(w) / 2` from the source. -/
def admm_g (w : List ℚ) : ℚ := norm2sq w / 2

/-- The w̃-update objective built by the source:
`f(w_tilde) + (rho/2) * cp.sum_squares(w_tilde - w + y/rho)`. -/
def w_tilde_obj (f : List ℚ → ℚ) (rho : ℚ) (w lam u : List ℚ) : ℚ :=
  f u + rho / 2 * norm2sq (vadd (vsub u w) (vdiv lam rho))

/-- The w-update objective built by the source (note the minus sign):
`g(w) + (rho/2) * cp.sum_squares(w - w_tilde - y/rho)`. -/
def w_obj (g : List ℚ → ℚ) (rho : ℚ) (wt lam u : List ℚ) : ℚ :=
  g u + rho / 2 * norm2sq (vsub (vsub u wt) (vdiv lam rho))

/-- The w-update objective as the spec's claim words it:
`g(u) + (ρ/2)‖u − w̃ + λ/ρ‖₂²` (plus sign on the dual term). -/
def w_obj_claimed (g : List ℚ → ℚ) (rho : ℚ) (wt lam u : List ℚ) : ℚ :=
  g u + rho / 2 * norm2sq (vadd (vsub u wt) (vdiv lam rho))

/-- The w-update objective as amended: `g(u) + (ρ/2)‖u − (w̃ + λ/ρ)‖₂²`,
i.e. minus on the dual term. -/
def w_obj_amended (g : List ℚ → ℚ) (rho : ℚ) (wt lam u : List ℚ) : ℚ :=
  g u + rho / 2 * norm2sq (vsub u (vadd wt (vdiv lam rho)))

/-- The closed-form minimizer of `w_obj admm_g rho wt lam` over vectors of the
common length: componentwise `(ρ/(1+ρ))·(w̃ + λ/ρ)`. -/
def wStar (rho : ℚ) (wt lam : List ℚ) : List ℚ :=
  smul (rho / (1 + rho)) (vadd wt (vdiv lam rho))

/-- One iteration of the ADMM loop as written in the source: each subproblem is
handed to the external convex sub-solver `S` (the cvxpy `Problem.solve` call),
and no solver status is inspected afterwards.  Modelled from the spec: the
external sub-solver may fail, and the reference behavior "continues silently on
stale values", so a failed solve (`none`) leaves the variable at its previous
value.  State is `(w̃, w, λ)`; the dual update is `λ += ρ(w̃ − w)`. -/
def admm_iteration (S : (List ℚ → ℚ) → Option (List ℚ))
    (f g : List ℚ → ℚ) (rho : ℚ)
    (st : List ℚ × List ℚ × List ℚ) : List ℚ × List ℚ × List ℚ :=
  let wt := (S (w_tilde_obj f rho st.2.1 st.2.2)).getD st.1
  let w := (S (w_obj g rho wt st.2.2)).getD st.2.1
  let lam := vadd st.2.2 (smul rho (vsub wt w))
  (wt, w, lam)

/-! ## Spec-side definitions (for refinement comparisons) -/

/-- The projector's index test as the spec words it (step 4 of §4.1):
`s[i] − (cumsum[i] − N)/i > 0`, at 1-based `i`. -/
def condSpec (s : List ℚ) (N : ℚ) (i : ℕ) : Prop :=
  elem1 s i - (cums s i - N) / (i : ℚ) > 0

instance (s : List ℚ) (N : ℚ) : DecidablePred (condSpec s N) := by
  intro i; unfold condSpec; infer_instance

/-- The projector output as the spec words it (steps 1–7 of §4.1): `ρ` is the
largest 1-based index satisfying the test, `θ = (cumsum[ρ] − N)/ρ`, and output
element `j` is `sign(v[j]) · max(|v[j]| − θ, 0)`. -/
def projectL1SpecFormula (v : List ℚ) (N : ℚ) : List ℚ :=
  let s := sortDesc (v.map (fun a => |a|))
  let rho := Nat.findGreatest (condSpec s N) s.length
  let theta := (cums s rho - N) / (rho : ℚ)
  v.map (fun a => signq a * max (|a| - theta) 0)

/-- The Huber derivative as the spec words it: `2u` on `|u| ≤ 1`, `±2` outside. -/
def hprimeSpec (u : ℚ) : ℚ := if |u| ≤ 1 then 2 * u else if 0 < u then 2 else -2

/-! ## Generic list lemmas -/

theorem sum_length_mul_le (l : List ℚ) (b : ℚ) (h : ∀ a ∈ l, b ≤ a) :
    (l.length : ℚ) * b ≤ l.sum := by
  induction l with
  | nil => simp
  | cons a t ih =>
      have ha := h a (by simp)
      have ht := ih (fun c hc => h c (by simp [hc]))
      simp only [List.length_cons, List.sum_cons]
      push_cast
      nlinarith [ht, ha]

theorem sum_map_sub_const (l : List ℚ) (c : ℚ) :
    (l.map (fun a => a - c)).sum = l.sum - l.length * c := by
  induction l with
  | nil => simp
  | cons a t ih =>
      simp only [List.map_cons, List.sum_cons, List.length_cons, ih]
      push_cast
      ring

/-! ## Sorting lemmas -/

theorem sortDesc_perm (u : List ℚ) : (sortDesc u).Perm u :=
  List.perm_insertionSort _ u

theorem sortDesc_sorted (u : List ℚ) :
    List.Sorted (fun a b : ℚ => a ≥ b) (sortDesc u) :=
  List.sorted_insertionSort _ u

theorem sortDesc_length (u : List ℚ) : (sortDesc u).length = u.length :=
  (sortDesc_perm u).length_eq

theorem sortDesc_sum (u : List ℚ) : (sortDesc u).sum = u.sum :=
  (sortDesc_perm u).sum_eq

theorem elem1_eq_getElem (s : List ℚ) (i : ℕ) (h1 : 1 ≤ i) (h2 : i ≤ s.length) :
    elem1 s i = s[i - 1] := by
  unfold elem1
  rw [List.getD_eq_getElem?_getD, List.getElem?_eq_getElem (by omega)]
  rfl

theorem elem1_anti {s : List ℚ} (hs : List.Sorted (fun a b : ℚ => a ≥ b) s)
    {p q : ℕ} (h1 : 1 ≤ p) (hpq : p ≤ q) (hq : q ≤ s.length) :
    elem1 s q ≤ elem1 s p := by
  rcases eq_or_lt_of_le hpq with rfl | hlt
  · exact le_refl _
  · rw [elem1_eq_getElem s p h1 (by omega), elem1_eq_getElem s q (by omega) hq]
    exact (List.pairwise_iff_getElem.1 hs) (p - 1) (q - 1)
      (by omega) (by omega) (by omega)

theorem elem1_mem {s : List ℚ} {i : ℕ} (h1 : 1 ≤ i) (h2 : i ≤ s.length) :
    elem1 s i ∈ s := by
  rw [elem1_eq_getElem s i h1 h2]
  exact List.getElem_mem _

/-! ## Running-sum lemmas -/

theorem cums_zero (s : List ℚ) : cums s 0 = 0 := by simp [cums]

theorem cums_succ (s : List ℚ) (i : ℕ) (h : i < s.length) :
    cums s (i + 1) = cums s i + elem1 s (i + 1) := by
  unfold cums
  rw [List.sum_take_succ s i h, elem1_eq_getElem s (i + 1) (by omega) (by omega)]
  simp

theorem cums_one (s : List ℚ) (h : 0 < s.length) : cums s 1 = elem1 s 1 := by
  have := cums_succ s 0 h
  simpa [cums_zero] using this

theorem cums_length (s : List ℚ) : cums s s.length = s.sum := by
  simp [cums]

theorem cums_ge_mul {s : List ℚ} (hs : List.Sorted (fun a b : ℚ => a ≥ b) s)
    {i : ℕ} (_h1 : 1 ≤ i) (h2 : i ≤ s.length) :
    (i : ℚ) * elem1 s i ≤ cums s i := by
  have hlen : (s.take i).length = i := by
    rw [List.length_take]
    omega
  have hmem : ∀ a ∈ s.take i, elem1 s i ≤ a := by
    intro a ha
    obtain ⟨j, hj, rfl⟩ := List.mem_iff_getElem.1 ha
    have hj' : j < i := by rwa [hlen] at hj
    have hji : (s.take i)[j] = s[j] := by
      simp [List.getElem_take]
    rw [hji]
    have heq : elem1 s (j + 1) = s[j] := by
      rw [elem1_eq_getElem s (j + 1) (by omega) (by omega)]
      simp
    rw [← heq]
    exact @elem1_anti s hs (j + 1) i (by omega) (by omega) h2
  have := sum_length_mul_le (s.take i) (elem1 s i) hmem
  rw [hlen] at this
  exact this

/-! ## NumPy boolean-mask selection: `getLast?` of a filtered index range -/

/-- `array[mask]` selection over the 1-based index range `1..n`: the values
`f i` at the indices `i` with `P i`, in increasing index order. -/
def idxMap {α : Type} (P : ℕ → Bool) (f : ℕ → α) (n : ℕ) : List α :=
  ((List.range n).map (fun i => i + 1)).filterMap
    (fun i => if P i then some (f i) else none)

theorem qualList_eq_idxMap (s : List ℚ) (N : ℚ) :
    qualList s N =
      idxMap (condB s N) (fun i => (elem1 s i, cums s i - N, i)) s.length := rfl

theorem idxMap_succ {α : Type} (P : ℕ → Bool) (f : ℕ → α) (n : ℕ) :
    idxMap P f (n + 1) = idxMap P f n ++ (if P (n + 1) then [f (n + 1)] else []) := by
  unfold idxMap
  rw [List.range_succ n, List.map_append, List.filterMap_append]
  by_cases h : P (n + 1) <;> simp [h]

/-- The last element of the masked selection comes from the largest qualifying
index, which qualifies and is in range. -/
theorem idxMap_getLast_spec {α : Type} (P : ℕ → Bool) (f : ℕ → α) :
    ∀ (n : ℕ) (t : α), (idxMap P f n).getLast? = some t →
      ∃ i, t = f i ∧ P i = true ∧ 1 ≤ i ∧ i ≤ n ∧
        ∀ j, i < j → j ≤ n → P j = false := by
  intro n
  induction n with
  | zero => intro t ht; simp [idxMap] at ht
  | succ n ih =>
      intro t ht
      rw [idxMap_succ] at ht
      by_cases h : P (n + 1)
      · rw [if_pos h, List.getLast?_concat] at ht
        refine ⟨n + 1, (Option.some_inj.1 ht).symm, h, by omega, le_refl _, ?_⟩
        intro j hj1 hj2
        omega
      · rw [if_neg h, List.append_nil] at ht
        obtain ⟨i, rfl, hP, hi1, hi2, hmax⟩ := ih t ht
        refine ⟨i, rfl, hP, hi1, by omega, ?_⟩
        intro j hj1 hj2
        rcases Nat.lt_or_ge j (n + 1) with hlt | hge
        · exact hmax j hj1 (by omega)
        · have hj : j = n + 1 := by omega
          subst hj
          exact Bool.eq_false_iff.2 (fun hc => h hc)

/-- If some index in `1..n` qualifies, the masked selection is nonempty. -/
theorem idxMap_getLast_isSome {α : Type} (P : ℕ → Bool) (f : ℕ → α) (n k : ℕ)
    (h1 : 1 ≤ k) (h2 : k ≤ n) (hP : P k = true) :
    ∃ t, (idxMap P f n).getLast? = some t := by
  have hmem : f k ∈ idxMap P f n := by
    unfold idxMap
    refine List.mem_filterMap.2 ⟨k, ?_, by rw [if_pos hP]⟩
    refine List.mem_map.2 ⟨k - 1, ?_, by omega⟩
    rw [List.mem_range]
    omega
  have hne : idxMap P f n ≠ [] := List.ne_nil_of_mem hmem
  cases hl : (idxMap P f n).getLast? with
  | none => exact absurd (List.getLast?_eq_none_iff.1 hl) hne
  | some t => exact ⟨t, rfl⟩

/-! ## Projector path lemmas -/

theorem condB_iff (s : List ℚ) (N : ℚ) (i : ℕ) :
    condB s N i = true ↔ condSpec s N i := by
  simp [condB, condSpec]

theorem project_fastpath (x : List ℚ) (N : ℚ) (h : norm1 x ≤ N) :
    project_onto_l1_ball x N = some x := by
  unfold project_onto_l1_ball
  rw [if_pos h]

theorem project_general (x : List ℚ) (N : ℚ) (hbig : ¬ norm1 x ≤ N) :
    project_onto_l1_ball x N =
      ((qualList (sortDesc (x.map (fun a => |a|))) N).getLast?).map
        (fun t => x.map (fun a => signq a * max (|a| - t.2.1 / (t.2.2 : ℚ)) 0)) := by
  unfold project_onto_l1_ball
  rw [if_neg hbig, if_neg (by simpa [norm1] using hbig)]
  cases h : (qualList (sortDesc (x.map (fun a => |a|))) N).getLast? <;>
    simp only [h, Option.map_none', Option.map_some']

theorem condSpec_one (s : List ℚ) (N : ℚ) (hlen : 0 < s.length) (hN : 0 < N) :
    condSpec s N 1 := by
  unfold condSpec
  rw [cums_one s hlen]
  push_cast
  simp only [div_one]
  linarith

theorem condSpec_false_of_nonpos {s : List ℚ}
    (hs : List.Sorted (fun a b : ℚ => a ≥ b) s) {N : ℚ} (hN : N ≤ 0)
    {i : ℕ} (h1 : 1 ≤ i) (h2 : i ≤ s.length) : ¬ condSpec s N i := by
  unfold condSpec
  have hc := cums_ge_mul hs h1 h2
  have hipos : (0 : ℚ) < (i : ℚ) := by exact_mod_cast h1
  rw [not_lt, sub_nonpos, le_div_iff₀ hipos]
  have hc' : elem1 s i * (i : ℚ) ≤ cums s i := by rw [mul_comm]; exact hc
  linarith

/-- On a nonempty input the length of the sorted absolute-value list is positive. -/
theorem sortDesc_abs_length_pos {x : List ℚ} {N : ℚ} (hbig : ¬ norm1 x ≤ N)
    (hN : 0 < N) : 0 < (sortDesc (x.map (fun a => |a|))).length := by
  rw [sortDesc_length, List.length_map]
  by_contra h
  have hx : x = [] := List.length_eq_zero.1 (by omega)
  subst hx
  simp [norm1] at hbig
  linarith

/-- General-path characterization: when `‖x‖₁ > N` and `N > 0`, the source
selects the largest qualifying 1-based index `r` and soft-thresholds at
`θ = (cums s r − N)/r`. -/
theorem project_general_spec (x : List ℚ) (N : ℚ) (hbig : ¬ norm1 x ≤ N)
    (hN : 0 < N) :
    ∃ r : ℕ,
      1 ≤ r ∧ r ≤ (sortDesc (x.map (fun a => |a|))).length ∧
      condSpec (sortDesc (x.map (fun a => |a|))) N r ∧
      (∀ j, r < j → j ≤ (sortDesc (x.map (fun a => |a|))).length →
        ¬ condSpec (sortDesc (x.map (fun a => |a|))) N j) ∧
      project_onto_l1_ball x N =
        some (x.map (fun a => signq a *
          max (|a| - (cums (sortDesc (x.map (fun b => |b|))) r - N) / (r : ℚ)) 0)) := by
  have hlen := sortDesc_abs_length_pos hbig hN
  have hcond1 : condB (sortDesc (x.map (fun a => |a|))) N 1 = true :=
    (condB_iff _ _ _).2 (condSpec_one _ _ hlen hN)
  obtain ⟨t, ht⟩ :=
    idxMap_getLast_isSome (condB (sortDesc (x.map (fun a => |a|)) ) N)
      (fun i => (elem1 (sortDesc (x.map (fun a => |a|))) i,
        cums (sortDesc (x.map (fun a => |a|))) i - N, i))
      (sortDesc (x.map (fun a => |a|))).length 1 le_rfl hlen hcond1
  obtain ⟨r, rfl, hP, hr1, hrn, hmax⟩ :=
    idxMap_getLast_spec _ _ (sortDesc (x.map (fun a => |a|))).length t ht
  refine ⟨r, hr1, hrn, (condB_iff _ _ _).1 hP, ?_, ?_⟩
  · intro j hj1 hj2 hc
    have hf := hmax j hj1 hj2
    have htr := (condB_iff _ _ _).2 hc
    rw [hf] at htr
    exact Bool.false_ne_true htr
  · rw [project_general x N hbig, qualList_eq_idxMap, ht]
    rfl

/-! ## Threshold lemmas -/

theorem elem1_le_theta {s : List ℚ} (hs : List.Sorted (fun a b : ℚ => a ≥ b) s)
    {N : ℚ} {r : ℕ} (hr1 : 1 ≤ r)
    (hmax : ∀ j, r < j → j ≤ s.length → ¬ condSpec s N j)
    {j : ℕ} (hj1 : r < j) (hj2 : j ≤ s.length) :
    elem1 s j ≤ (cums s r - N) / (r : ℚ) := by
  have hrpos : (0 : ℚ) < (r : ℚ) := by exact_mod_cast hr1
  have hnc := hmax (r + 1) (by omega) (by omega)
  unfold condSpec at hnc
  rw [not_lt] at hnc
  have hcs : cums s (r + 1) = cums s r + elem1 s (r + 1) := cums_succ s r (by omega)
  have hkey : elem1 s (r + 1) ≤ (cums s r - N) / (r : ℚ) := by
    rw [le_div_iff₀ hrpos]
    rw [sub_nonpos] at hnc
    rw [le_div_iff₀ (by push_cast; linarith : (0 : ℚ) < ((r + 1 : ℕ) : ℚ))] at hnc
    rw [hcs] at hnc
    push_cast at hnc
    nlinarith [hnc]
  calc elem1 s j ≤ elem1 s (r + 1) := elem1_anti hs (by omega) (by omega) hj2
    _ ≤ _ := hkey

theorem theta_nonneg {x : List ℚ} {N : ℚ} (hbig : ¬ norm1 x ≤ N) {r : ℕ}
    (hr1 : 1 ≤ r) (hrn : r ≤ (sortDesc (x.map (fun a => |a|))).length)
    (hmax : ∀ j, r < j → j ≤ (sortDesc (x.map (fun a => |a|))).length →
      ¬ condSpec (sortDesc (x.map (fun a => |a|))) N j) :
    0 ≤ (cums (sortDesc (x.map (fun a => |a|))) r - N) / (r : ℚ) := by
  have hs := sortDesc_sorted (x.map (fun a => |a|))
  have hrpos : (0 : ℚ) < (r : ℚ) := by exact_mod_cast hr1
  rcases eq_or_lt_of_le hrn with heq | hlt
  · have hsum : cums (sortDesc (x.map (fun a => |a|))) r = norm1 x := by
      rw [heq, cums_length, sortDesc_sum]
      rfl
    apply div_nonneg _ (le_of_lt hrpos)
    rw [hsum]
    linarith [not_le.1 hbig]
  · have hm : elem1 (sortDesc (x.map (fun a => |a|))) (r + 1)
        ∈ sortDesc (x.map (fun a => |a|)) := elem1_mem (by omega) (by omega)
    have hm' : elem1 (sortDesc (x.map (fun a => |a|))) (r + 1)
        ∈ x.map (fun a => |a|) := (sortDesc_perm _).subset hm
    obtain ⟨b, _, hb⟩ := List.mem_map.1 hm'
    have h0 : 0 ≤ elem1 (sortDesc (x.map (fun a => |a|))) (r + 1) := by
      rw [← hb]; exact abs_nonneg b
    have := elem1_le_theta hs hr1 hmax (by omega : r < r + 1) (by omega)
    linarith

/-- The central sum identity: over a descending, nonnegative list, the
soft-threshold at `θ = (cums s r − N)/r` for the largest qualifying `r`
sums to exactly `N`. -/
theorem soft_threshold_sum {s : List ℚ}
    (hs : List.Sorted (fun a b : ℚ => a ≥ b) s)
    {N : ℚ} {r : ℕ} (hr1 : 1 ≤ r) (hrn : r ≤ s.length)
    (hcond : condSpec s N r)
    (hmax : ∀ j, r < j → j ≤ s.length → ¬ condSpec s N j) :
    (s.map (fun u => max (u - (cums s r - N) / (r : ℚ)) 0)).sum = N := by
  have hrpos : (0 : ℚ) < (r : ℚ) := by exact_mod_cast hr1
  have hTlt : (cums s r - N) / (r : ℚ) < elem1 s r := by
    unfold condSpec at hcond
    linarith
  have hsplit : s.map (fun u => max (u - (cums s r - N) / (r : ℚ)) 0)
      = (s.take r).map (fun u => max (u - (cums s r - N) / (r : ℚ)) 0)
        ++ (s.drop r).map (fun u => max (u - (cums s r - N) / (r : ℚ)) 0) := by
    rw [← List.map_append, List.take_append_drop]
  have hlentake : (s.take r).length = r := by
    rw [List.length_take]; omega
  have htake : ∀ a ∈ s.take r,
      max (a - (cums s r - N) / (r : ℚ)) 0 = a - (cums s r - N) / (r : ℚ) := by
    intro a ha
    obtain ⟨j, hj, rfl⟩ := List.mem_iff_getElem.1 ha
    have hj' : j < r := by rwa [hlentake] at hj
    have hji : (s.take r)[j] = s[j] := by
      simp [List.getElem_take]
    have heq : elem1 s (j + 1) = s[j] := by
      rw [elem1_eq_getElem s (j + 1) (by omega) (by omega)]
      simp
    have hge : elem1 s r ≤ (s.take r)[j] := by
      rw [hji, ← heq]
      exact @elem1_anti s hs (j + 1) r (by omega) (by omega) (by omega)
    apply max_eq_left
    linarith
  have htakesum : ((s.take r).map
      (fun u => max (u - (cums s r - N) / (r : ℚ)) 0)).sum = N := by
    rw [List.map_congr_left htake, sum_map_sub_const, hlentake]
    have hmul : (r : ℚ) * ((cums s r - N) / (r : ℚ)) = cums s r - N :=
      mul_div_cancel₀ _ (ne_of_gt hrpos)
    have hts : (s.take r).sum = cums s r := rfl
    rw [hts, hmul]
    ring
  have hdrop : ∀ a ∈ s.drop r,
      max (a - (cums s r - N) / (r : ℚ)) 0 = 0 := by
    intro a ha
    obtain ⟨j, hj, rfl⟩ := List.mem_iff_getElem.1 ha
    have hjlen : r + j < s.length := by
      rw [List.length_drop] at hj; omega
    have hji : (s.drop r)[j] = s[r + j] := by
      simp [List.getElem_drop]
    have heq : elem1 s (r + j + 1) = s[r + j] := by
      rw [elem1_eq_getElem s (r + j + 1) (by omega) (by omega)]
      simp
    have hle : (s.drop r)[j] ≤ (cums s r - N) / (r : ℚ) := by
      rw [hji, ← heq]
      exact elem1_le_theta hs hr1 hmax (by omega : r < r + j + 1) (by omega)
    apply max_eq_right
    linarith
  have hdropsum : ((s.drop r).map
      (fun u => max (u - (cums s r - N) / (r : ℚ)) 0)).sum = 0 := by
    rw [List.map_congr_left hdrop]
    simp
  rw [hsplit, List.sum_append, htakesum, hdropsum]
  ring

/-! ## Pointwise sign lemmas -/

theorem signq_mul_self (a : ℚ) : signq a * a = |a| := by
  rcases lt_trichotomy a 0 with h | h | h
  · rw [signq, if_neg (by linarith), if_pos h, abs_of_neg h]
    ring
  · rw [h]
    simp [signq]
  · rw [signq, if_pos h, abs_of_pos h]
    ring

theorem abs_signq_max (a T : ℚ) (hT : 0 ≤ T) :
    |signq a * max (|a| - T) 0| = max (|a| - T) 0 := by
  rcases lt_trichotomy a 0 with h | h | h
  · rw [signq, if_neg (by linarith), if_pos h, neg_one_mul, abs_neg,
      abs_of_nonneg (le_max_right _ _)]
  · rw [h, abs_zero, zero_sub, signq, if_neg (lt_irrefl 0), if_neg (lt_irrefl 0),
      zero_mul, abs_zero, max_eq_right (by linarith)]
  · rw [signq, if_pos h, one_mul, abs_of_nonneg (le_max_right _ _)]

/-- On the general path the output's L1 norm is exactly `N`. -/
theorem project_output_norm1 {x : List ℚ} {N : ℚ} (hbig : ¬ norm1 x ≤ N) {r : ℕ}
    (hr1 : 1 ≤ r) (hrn : r ≤ (sortDesc (x.map (fun a => |a|))).length)
    (hcond : condSpec (sortDesc (x.map (fun a => |a|))) N r)
    (hmax : ∀ j, r < j → j ≤ (sortDesc (x.map (fun a => |a|))).length →
      ¬ condSpec (sortDesc (x.map (fun a => |a|))) N j) :
    norm1 (x.map (fun a => signq a *
      max (|a| - (cums (sortDesc (x.map (fun b => |b|))) r - N) / (r : ℚ)) 0)) = N := by
  have hθ : 0 ≤ (cums (sortDesc (x.map (fun a => |a|))) r - N) / (r : ℚ) :=
    theta_nonneg hbig hr1 hrn hmax
  have hs := sortDesc_sorted (x.map (fun a => |a|))
  unfold norm1
  rw [List.map_map]
  have hcomp : ((fun a => |a|) ∘ fun a => signq a *
        max (|a| - (cums (sortDesc (x.map (fun b => |b|))) r - N) / (r : ℚ)) 0)
      = (fun u => max (u - (cums (sortDesc (x.map (fun b => |b|))) r - N) / (r : ℚ)) 0)
        ∘ (fun a => |a|) := by
    funext a
    simp only [Function.comp]
    exact abs_signq_max a _ hθ
  rw [hcomp, ← List.map_map]
  rw [← ((sortDesc_perm (x.map (fun a => |a|))).map
    (fun u => max (u - (cums (sortDesc (x.map (fun b => |b|))) r - N) / (r : ℚ)) 0)).sum_eq]
  exact soft_threshold_sum hs hr1 hrn hcond hmax

/-- If no index in `1..n` qualifies, the masked selection is empty. -/
theorem idxMap_eq_nil {α : Type} (P : ℕ → Bool) (f : ℕ → α) :
    ∀ n : ℕ, (∀ i, 1 ≤ i → i ≤ n → P i = false) → idxMap P f n = [] := by
  intro n
  induction n with
  | zero => intro _; rfl
  | succ n ih =>
      intro h
      rw [idxMap_succ, if_neg (by simp [h (n + 1) (by omega) le_rfl]), List.append_nil]
      exact ih (fun i h1 h2 => h i h1 (by omega))

/-- C7: for every vector `v` and radius `N > 0`, any output of
`project_onto_l1_ball` satisfies `‖output‖₁ ≤ N` exactly (in the exact
arithmetic of this embedding; on the general path the norm is exactly `N`). -/
theorem project_l1_feasibility (x : List ℚ) (N : ℚ) (hN : 0 < N)
    (out : List ℚ) (hout : project_onto_l1_ball x N = some out) :
    norm1 out ≤ N := by
  by_cases hfast : norm1 x ≤ N
  · rw [project_fastpath x N hfast] at hout
    obtain rfl := Option.some_inj.1 hout
    exact hfast
  · obtain ⟨r, hr1, hrn, hcond, hmax, heq⟩ := project_general_spec x N hfast hN
    rw [heq] at hout
    obtain rfl := Option.some_inj.1 hout
    rw [project_output_norm1 hfast hr1 hrn hcond hmax]

theorem project_l1_feasibility_witness :
    0 < (5 : ℚ) ∧ project_onto_l1_ball [4, -3, 2] 5 = some [8/3, -5/3, 2/3] ∧
      norm1 [8/3, -5/3, 2/3] ≤ 5 := by
  have hp : project_onto_l1_ball [4, -3, 2] 5 = some [8/3, -5/3, 2/3] := by
    norm_num [project_onto_l1_ball, qualList, condB, elem1, cums, norm1, sortDesc,
      List.insertionSort, List.orderedInsert, List.filterMap, List.range_succ, signq]
  exact ⟨by norm_num, hp,
    project_l1_feasibility [4, -3, 2] 5 (by norm_num) [8/3, -5/3, 2/3] hp⟩

/-- C8: the projector is the exact identity on the feasible set: whenever
`‖v‖₁ ≤ N` the input is returned unchanged, and in particular the all-zero
vector is returned unchanged for every `N > 0`. -/
theorem project_l1_identity_on_feasible :
    (∀ v : List ℚ, ∀ N : ℚ, norm1 v ≤ N → project_onto_l1_ball v N = some v)
    ∧ (∀ N : ℚ, 0 < N → project_onto_l1_ball [0, 0, 0] N = some [0, 0, 0]) := by
  constructor
  · intro v N h
    exact project_fastpath v N h
  · intro N hN
    apply project_fastpath
    rw [show norm1 [0, 0, 0] = 0 by norm_num [norm1]]
    linarith

theorem project_l1_identity_on_feasible_witness :
    norm1 [1, 1, 1] ≤ 10 ∧ project_onto_l1_ball [1, 1, 1] 10 = some [1, 1, 1] :=
  ⟨by norm_num [norm1],
    project_l1_identity_on_feasible.1 [1, 1, 1] 10 (by norm_num [norm1])⟩

/-- C9: for `N > 0`, projection never increases a coordinate's magnitude and
never flips a coordinate's sign (stated via `getD`, which is `0` beyond the
length of either list). -/
theorem project_l1_coordinatewise (x : List ℚ) (N : ℚ) (hN : 0 < N)
    (out : List ℚ) (hout : project_onto_l1_ball x N = some out) (j : ℕ) :
    |out.getD j 0| ≤ |x.getD j 0| ∧ 0 ≤ out.getD j 0 * x.getD j 0 := by
  by_cases hfast : norm1 x ≤ N
  · rw [project_fastpath x N hfast] at hout
    obtain rfl := Option.some_inj.1 hout
    exact ⟨le_refl _, mul_self_nonneg _⟩
  · obtain ⟨r, hr1, hrn, hcond, hmax, heq⟩ := project_general_spec x N hfast hN
    rw [heq] at hout
    obtain rfl := Option.some_inj.1 hout
    have hθ : 0 ≤ (cums (sortDesc (x.map (fun a => |a|))) r - N) / (r : ℚ) :=
      theta_nonneg hfast hr1 hrn hmax
    rcases Nat.lt_or_ge j x.length with hj | hj
    · have hxj : x.getD j 0 = x[j] := by
        rw [List.getD_eq_getElem?_getD, List.getElem?_eq_getElem hj]
        rfl
      have houtj : (x.map (fun a => signq a *
            max (|a| - (cums (sortDesc (x.map (fun b => |b|))) r - N) / (r : ℚ)) 0)).getD j 0
          = signq (x[j]) *
            max (|x[j]| - (cums (sortDesc (x.map (fun b => |b|))) r - N) / (r : ℚ)) 0 := by
        rw [List.getD_eq_getElem?_getD, List.getElem?_map, List.getElem?_eq_getElem hj]
        rfl
      rw [houtj, hxj]
      constructor
      · rw [abs_signq_max _ _ hθ]
        apply max_le _ (abs_nonneg _)
        linarith
      · have hrw : signq (x[j]) *
              max (|x[j]| - (cums (sortDesc (x.map (fun b => |b|))) r - N) / (r : ℚ)) 0
              * (x[j])
            = |x[j]| *
              max (|x[j]| - (cums (sortDesc (x.map (fun b => |b|))) r - N) / (r : ℚ)) 0 := by
          rw [← signq_mul_self (x[j])]
          ring
        rw [hrw]
        exact mul_nonneg (abs_nonneg _) (le_max_right _ _)
    · have hx0 : x.getD j 0 = 0 := by
        rw [List.getD_eq_getElem?_getD, List.getElem?_eq_none (by omega)]
        rfl
      have hout0 : (x.map (fun a => signq a *
            max (|a| - (cums (sortDesc (x.map (fun b => |b|))) r - N) / (r : ℚ)) 0)).getD j 0
          = 0 := by
        rw [List.getD_eq_getElem?_getD, List.getElem?_eq_none (by simpa using hj)]
        rfl
      rw [hx0, hout0]
      norm_num

theorem project_l1_coordinatewise_witness :
    0 < (5 : ℚ) ∧ project_onto_l1_ball [4, -3, 2] 5 = some [8/3, -5/3, 2/3] ∧
      (|([8/3, -5/3, 2/3] : List ℚ).getD 1 0| ≤ |([4, -3, 2] : List ℚ).getD 1 0| ∧
        0 ≤ ([8/3, -5/3, 2/3] : List ℚ).getD 1 0 * ([4, -3, 2] : List ℚ).getD 1 0) := by
  have hp : project_onto_l1_ball [4, -3, 2] 5 = some [8/3, -5/3, 2/3] := by
    norm_num [project_onto_l1_ball, qualList, condB, elem1, cums, norm1, sortDesc,
      List.insertionSort, List.orderedInsert, List.filterMap, List.range_succ, signq]
  exact ⟨by norm_num, hp,
    project_l1_coordinatewise [4, -3, 2] 5 (by norm_num) [8/3, -5/3, 2/3] hp 1⟩

/-- C5 counterexample: the claim says every call with `N ≤ 0` fails with an
`InvalidArgument` condition at entry; but at `v = [0]`, `N = 0` the source
returns the vector unchanged with no error at all. -/
theorem project_l1_nonpositive_radius_counterexample :
    (0 : ℚ) ≤ 0 ∧ project_onto_l1_ball [(0 : ℚ)] 0 = some [0] :=
  ⟨le_refl 0, by norm_num [project_onto_l1_ball, norm1]⟩

/-- C5 amended: for `N ≤ 0` the source performs no entry validation and never
raises `InvalidArgument`: when `‖v‖₁ ≤ N` (possible only for an all-zero `v`
with `N = 0`) the vector is returned unchanged, and otherwise the computation
proceeds through the sort and running sums until the qualifying-index selection
`ind[cond][-1]` finds no qualifying index and fails there with an uncaught
`IndexError` (the `none` of this embedding); `N` is never clamped. -/
theorem project_l1_nonpositive_radius_fails (v : List ℚ) (N : ℚ)
    (hN : N ≤ 0) (hbig : N < norm1 v) :
    project_onto_l1_ball v N = none := by
  have hb : ¬ norm1 v ≤ N := not_le.2 hbig
  rw [project_general v N hb]
  have hnil : qualList (sortDesc (v.map (fun a => |a|))) N = [] := by
    rw [qualList_eq_idxMap]
    apply idxMap_eq_nil
    intro i h1 h2
    have hns := condSpec_false_of_nonpos (sortDesc_sorted (v.map (fun a => |a|))) hN h1 h2
    exact Bool.eq_false_iff.2 (fun hc => hns ((condB_iff _ _ _).1 hc))
  rw [hnil]
  rfl

theorem project_l1_nonpositive_radius_fails_witness :
    (0 : ℚ) ≤ 0 ∧ (0 : ℚ) < norm1 [(1 : ℚ)] ∧
      project_onto_l1_ball [(1 : ℚ)] 0 = none :=
  ⟨le_refl 0, by norm_num [norm1],
    project_l1_nonpositive_radius_fails [1] 0 (le_refl 0) (by norm_num [norm1])⟩

/-- C1: on the general path (`‖v‖₁ > N > 0`) the source computes exactly the
spec's formula: soft-thresholding at `θ = (cumsum[ρ] − N)/ρ` with `ρ` the
largest qualifying 1-based index; and on `v = [4, −3, 2]`, `N = 5` the output
is `[8/3, −5/3, 2/3]` (threshold `4/3`). -/
theorem project_l1_general_path_formula :
    (∀ v : List ℚ, ∀ N : ℚ, 0 < N → N < norm1 v →
      project_onto_l1_ball v N = some (projectL1SpecFormula v N))
    ∧ project_onto_l1_ball [4, -3, 2] 5 = some [8/3, -5/3, 2/3] := by
  constructor
  · intro v N hN hbig
    have hb : ¬ norm1 v ≤ N := not_le.2 hbig
    obtain ⟨r, hr1, hrn, hcond, hmax, heq⟩ := project_general_spec v N hb hN
    rw [heq]
    have hfg : Nat.findGreatest (condSpec (sortDesc (v.map (fun a => |a|))) N)
        (sortDesc (v.map (fun a => |a|))).length = r := by
      apply Nat.findGreatest_eq_iff.2
      refine ⟨hrn, fun _ => hcond, ?_⟩
      intro m hm1 hm2
      exact hmax m hm1 hm2
    simp only [projectL1SpecFormula]
    rw [hfg]
  · norm_num [project_onto_l1_ball, qualList, condB, elem1, cums, norm1, sortDesc,
      List.insertionSort, List.orderedInsert, List.filterMap, List.range_succ, signq]

theorem project_l1_general_path_formula_witness :
    0 < (5 : ℚ) ∧ (5 : ℚ) < norm1 [4, -3, 2] ∧
      project_onto_l1_ball [4, -3, 2] 5 = some (projectL1SpecFormula [4, -3, 2] 5) :=
  ⟨by norm_num, by norm_num [norm1],
    project_l1_general_path_formula.1 [4, -3, 2] 5 (by norm_num) (by norm_num [norm1])⟩

/-! ## Huber gradient -/

theorem hprime_eq_spec (u : ℚ) : hprime u = hprimeSpec u := by
  unfold hprime hprimeSpec signq
  by_cases h : |u| ≤ 1
  · rw [if_pos h, if_pos h]
  · rw [if_neg h, if_neg h]
    have hu : u ≠ 0 := by
      intro h0
      rw [h0] at h
      simp at h
    by_cases hpos : 0 < u
    · rw [if_pos hpos, if_pos hpos]
      norm_num
    · have hneg : u < 0 := lt_of_le_of_ne (not_lt.1 hpos) hu
      rw [if_neg hpos, if_pos hneg, if_neg hpos]
      norm_num

/-- C3: the gradient oracle returns `Aᵀ · hᵖ(A·x − y)` with the elementwise
derivative `hᵖ(u) = 2u` for `|u| ≤ 1` and `±2` for `|u| > 1`; at the residual
`[1/2, 2, −2]` the elementwise derivative is `[1, 2, −2]`. -/
theorem huber_gradient_spec_ok :
    (∀ (A : List (List ℚ)) (x y : List ℚ),
      huber_gradient A x y
        = matVec (List.transpose A) ((vsub (matVec A x) y).map hprimeSpec))
    ∧ ([1/2, 2, -2] : List ℚ).map hprime = [1, 2, -2] := by
  constructor
  · intro A x y
    unfold huber_gradient
    congr 1
    exact List.map_congr_left (fun a _ => hprime_eq_spec a)
  · norm_num [hprime, signq, abs_le]

/-! ## Gradient-descent loop characterization -/

theorem project_isSome_of_pos (x : List ℚ) (N : ℚ) (hN : 0 < N) :
    ∃ w, project_onto_l1_ball x N = some w := by
  by_cases hfast : norm1 x ≤ N
  · exact ⟨x, project_fastpath x N hfast⟩
  · obtain ⟨r, _, _, _, _, heq⟩ := project_general_spec x N hfast hN
    exact ⟨_, heq⟩

theorem gdStep_project (A : List (List ℚ)) (y x : List ℚ) (ss N : ℚ) (hN : 0 < N) :
    project_onto_l1_ball (vsub x (smul ss (huber_gradient A x y))) N
      = some (gdStep A y ss N x) := by
  obtain ⟨w, hw⟩ := project_isSome_of_pos (vsub x (smul ss (huber_gradient A x y))) N hN
  rw [gdStep, hw]
  rfl

theorem gdLoop_budget (A : List (List ℚ)) (y : List ℚ) (ss tol N : ℚ) (hN : 0 < N) :
    ∀ (fuel k : ℕ) (x : List ℚ),
      (∀ j, j < fuel → ¬ gdConv A y tol (gdIter A y ss N x j)) →
      gdLoop A y ss tol N fuel k x
        = some (gdIter A y ss N x fuel, k + fuel, GDState.BudgetExhausted) := by
  intro fuel
  induction fuel with
  | zero =>
      intro k x _
      simp [gdLoop, gdIter]
  | succ fuel ih =>
      intro k x hnc
      have hnc0 : ¬ gdConv A y tol x := by
        have := hnc 0 (by omega)
        simpa [gdIter] using this
      simp only [gdLoop]
      split
      · next heq =>
          rw [gdStep_project A y x ss N hN] at heq
          cases heq
      · next xp heq =>
          rw [gdStep_project A y x ss N hN] at heq
          obtain rfl := Option.some_inj.1 heq
          rw [if_neg (by simpa [gdConv] using hnc0 :
            ¬ l2normLt (huber_gradient A x y) tol = true)]
          have hnc' : ∀ j, j < fuel →
              ¬ gdConv A y tol (gdIter A y ss N (gdStep A y ss N x) j) := by
            intro j hj
            have := hnc (j + 1) (by omega)
            rw [gdIter, Function.iterate_succ_apply] at this
            simpa [gdIter] using this
          rw [ih (k + 1) (gdStep A y ss N x) hnc']
          have hk : k + 1 + fuel = k + (fuel + 1) := by omega
          rw [hk]
          simp [gdIter, Function.iterate_succ_apply]

theorem gdLoop_converged (A : List (List ℚ)) (y : List ℚ) (ss tol N : ℚ) (hN : 0 < N) :
    ∀ (fuel k m : ℕ) (x : List ℚ), m < fuel →
      gdConv A y tol (gdIter A y ss N x m) →
      (∀ j, j < m → ¬ gdConv A y tol (gdIter A y ss N x j)) →
      gdLoop A y ss tol N fuel k x
        = some (gdIter A y ss N x (m + 1), k + m, GDState.Converged) := by
  intro fuel
  induction fuel with
  | zero =>
      intro k m x hm
      omega
  | succ fuel ih =>
      intro k m x hm hc hmin
      simp only [gdLoop]
      split
      · next heq =>
          rw [gdStep_project A y x ss N hN] at heq
          cases heq
      · next xp heq =>
          rw [gdStep_project A y x ss N hN] at heq
          obtain rfl := Option.some_inj.1 heq
          cases m with
          | zero =>
              have hc0 : gdConv A y tol x := by simpa [gdIter] using hc
              rw [if_pos (by simpa [gdConv] using hc0 :
                l2normLt (huber_gradient A x y) tol = true)]
              simp [gdIter]
          | succ m =>
              have hnc0 : ¬ gdConv A y tol x := by
                simpa [gdIter] using hmin 0 (by omega)
              rw [if_neg (by simpa [gdConv] using hnc0 :
                ¬ l2normLt (huber_gradient A x y) tol = true)]
              have hc' : gdConv A y tol (gdIter A y ss N (gdStep A y ss N x) m) := by
                rw [gdIter] at hc
                rw [Function.iterate_succ_apply] at hc
                simpa [gdIter] using hc
              have hmin' : ∀ j, j < m →
                  ¬ gdConv A y tol (gdIter A y ss N (gdStep A y ss N x) j) := by
                intro j hj
                have := hmin (j + 1) (by omega)
                rw [gdIter, Function.iterate_succ_apply] at this
                simpa [gdIter] using this
              rw [ih (k + 1) m (gdStep A y ss N x) (by omega) hc' hmin']
              have hk : k + 1 + m = k + (m + 1) := by omega
              rw [hk]
              simp [gdIter, Function.iterate_succ_apply]

/-- C4: the projected-gradient state machine.  With a valid radius `N > 0`:
every iteration's successor iterate is `Project(x_k − η·g_k, N)` (conjunct 1,
with `gdStep` the per-iteration map used by the iterate sequence `gdIter`);
the convergence test is `‖g_k‖₂ < ε` on the pre-step, pre-projection gradient
(conjunct 2 spells the test out); if no `k < K` passes the test the solver
stops after `K` iterations with `BudgetExhausted`, returning the last iterate
rather than failing (conjunct 3); and if `k < K` is the first index passing
the test the solver stops with `Converged` at count `k` (conjunct 4). -/
theorem gradient_descent_state_machine (A : List (List ℚ)) (y x0 : List ℚ)
    (ss tol N : ℚ) (K : ℕ) (hN : 0 < N) :
    (∀ x : List ℚ,
      project_onto_l1_ball (vsub x (smul ss (huber_gradient A x y))) N
        = some (gdStep A y ss N x))
    ∧ (∀ x : List ℚ, gdConv A y tol x ↔
        (0 < tol ∧ norm2sq (huber_gradient A x y) < tol ^ 2))
    ∧ ((∀ j, j < K → ¬ gdConv A y tol (gdIter A y ss N x0 j)) →
        gradient_descent A x0 y ss K tol N
          = some (gdIter A y ss N x0 K, K, GDState.BudgetExhausted))
    ∧ (∀ m, m < K → gdConv A y tol (gdIter A y ss N x0 m) →
        (∀ j, j < m → ¬ gdConv A y tol (gdIter A y ss N x0 j)) →
        gradient_descent A x0 y ss K tol N
          = some (gdIter A y ss N x0 (m + 1), m, GDState.Converged)) := by
  refine ⟨fun x => gdStep_project A y x ss N hN, ?_, ?_, ?_⟩
  · intro x
    unfold gdConv l2normLt
    simp
  · intro h
    unfold gradient_descent
    simpa using gdLoop_budget A y ss tol N hN K 0 x0 h
  · intro m hm hc hmin
    unfold gradient_descent
    simpa using gdLoop_converged A y ss tol N hN K 0 m x0 hm hc hmin

theorem gradient_descent_state_machine_witness :
    gradient_descent [[1]] [5] [0] (1/10) 1 1 1
      = some ([1], 1, GDState.BudgetExhausted) := by
  have h := (gradient_descent_state_machine [[1]] [0] [5] (1/10) 1 1 1
    (by norm_num)).2.2.1
  have hnc : ∀ j, j < 1 → ¬ gdConv [[1]] [0] 1 (gdIter [[1]] [0] (1/10) 1 [5] j) := by
    intro j hj
    have hj0 : j = 0 := by omega
    subst hj0
    norm_num [gdConv, gdIter, l2normLt, norm2sq, huber_gradient, matVec, dotQ, vsub,
      hprime, signq, abs_le, show List.transpose [[(1:ℚ)]] = [[1]] from rfl]
  rw [h hnc]
  norm_num [gdIter, gdStep, huber_gradient, matVec, dotQ, vsub, hprime, signq,
    abs_le, show List.transpose [[(1:ℚ)]] = [[1]] from rfl, Function.comp,
    smul, project_onto_l1_ball, qualList, condB, elem1,
    cums, norm1, sortDesc, List.insertionSort, List.orderedInsert, List.filterMap,
    List.range_succ, max_def, show |(24:ℚ)/5| = 24/5 by rw [abs_of_pos]; norm_num]

/-- C10: with an iteration budget of `K = 0` the solver performs no gradient
evaluation, step, or projection and returns the starting point unchanged (with
count `0` and state `BudgetExhausted`), even when `x₀` is infeasible for the
L1 ball — as in the concrete instance `x₀ = [5]`, `N = 1`. -/
theorem gradient_descent_zero_budget :
    (∀ (A : List (List ℚ)) (x y : List ℚ) (ss tol N : ℚ),
      gradient_descent A x y ss 0 tol N = some (x, 0, GDState.BudgetExhausted))
    ∧ (gradient_descent [[1]] [5] [0] (1/10) 0 1 1
        = some ([5], 0, GDState.BudgetExhausted)
      ∧ 1 < norm1 [5]) := by
  refine ⟨fun A x y ss tol N => rfl, rfl, ?_⟩
  norm_num [norm1]

/-! ## ADMM w-update objective -/

theorem vsub_vsub_eq (u wt lam : List ℚ) (rho : ℚ) :
    vsub (vsub u wt) (vdiv lam rho) = vsub u (vadd wt (vdiv lam rho)) := by
  unfold vsub vadd vdiv
  induction u generalizing wt lam with
  | nil => simp
  | cons a u ih =>
      cases wt with
      | nil => simp
      | cons b wt =>
          cases lam with
          | nil => simp
          | cons c lam =>
              simp only [List.map_cons, List.zipWith_cons_cons, List.cons.injEq]
              exact ⟨by ring, ih wt lam⟩

theorem w_obj_eq_amended (g : List ℚ → ℚ) (rho : ℚ) (wt lam u : List ℚ) :
    w_obj g rho wt lam u = w_obj_amended g rho wt lam u := by
  unfold w_obj w_obj_amended
  rw [vsub_vsub_eq]

theorem w_obj_admm_g_cons (rho a b c : ℚ) (u wt lam : List ℚ) :
    w_obj admm_g rho (b :: wt) (c :: lam) (a :: u)
      = (a ^ 2 / 2 + rho / 2 * (a - b - c / rho) ^ 2) + w_obj admm_g rho wt lam u := by
  unfold w_obj admm_g norm2sq vsub vdiv
  simp only [List.map_cons, List.zipWith_cons_cons, List.sum_cons]
  ring

theorem quad_prox_min (rho cc a : ℚ) (hrho : 0 < rho) :
    (rho / (1 + rho) * cc) ^ 2 / 2 + rho / 2 * (rho / (1 + rho) * cc - cc) ^ 2
      ≤ a ^ 2 / 2 + rho / 2 * (a - cc) ^ 2 := by
  have h1 : (0 : ℚ) < 1 + rho := by linarith
  have hne : (1 + rho) ≠ 0 := ne_of_gt h1
  have key : a ^ 2 / 2 + rho / 2 * (a - cc) ^ 2
      - ((rho / (1 + rho) * cc) ^ 2 / 2 + rho / 2 * (rho / (1 + rho) * cc - cc) ^ 2)
      = (1 + rho) / 2 * (a - rho / (1 + rho) * cc) ^ 2 := by
    field_simp
    ring
  have hpos : 0 ≤ (1 + rho) / 2 * (a - rho / (1 + rho) * cc) ^ 2 := by positivity
  linarith [key, hpos]

theorem wStar_cons (rho b c : ℚ) (wt lam : List ℚ) :
    wStar rho (b :: wt) (c :: lam)
      = (rho / (1 + rho) * (b + c / rho)) :: wStar rho wt lam := by
  unfold wStar vadd vdiv smul
  simp

/-- For the source's `g(w) = ‖w‖²/2` and `ρ > 0`, `wStar` minimizes the
source's w-update objective over vectors of the common length. -/
theorem w_obj_min (rho : ℚ) (hrho : 0 < rho) :
    ∀ (wt lam u : List ℚ), lam.length = wt.length → u.length = wt.length →
      w_obj admm_g rho wt lam (wStar rho wt lam) ≤ w_obj admm_g rho wt lam u := by
  intro wt
  induction wt with
  | nil =>
      intro lam u hl hu
      obtain rfl : lam = [] := List.length_eq_zero.1 hl
      obtain rfl : u = [] := List.length_eq_zero.1 hu
      exact le_refl _
  | cons b wt ih =>
      intro lam u hl hu
      cases lam with
      | nil => simp at hl
      | cons c lam =>
          cases u with
          | nil => simp at hu
          | cons a u =>
              rw [wStar_cons, w_obj_admm_g_cons, w_obj_admm_g_cons]
              have heq : ∀ t : ℚ, t - b - c / rho = t - (b + c / rho) := by
                intro t
                ring
              rw [heq, heq]
              have hhead := quad_prox_min rho (b + c / rho) a hrho
              have htail := ih lam u (by simpa using hl) (by simpa using hu)
              exact add_le_add hhead htail

/-- C2 counterexample: with the source's `g(w) = ‖w‖²/2`, `ρ = 1`, `w̃ = [0]`,
`λ = [2]`, the source's w-update objective `w_obj` is minimized over length-1
vectors at `[1]` (so that is the value the w-update assigns to `w`), but `[1]`
does not minimize the objective the claim states — `w_obj_claimed`, with
`+λ/ρ` — since that objective is strictly smaller at `[−1]`. -/
theorem w_update_objective_sign_counterexample :
    (∀ u : List ℚ, u.length = 1 →
      w_obj admm_g 1 [0] [2] [1] ≤ w_obj admm_g 1 [0] [2] u)
    ∧ w_obj_claimed admm_g 1 [0] [2] [-1] < w_obj_claimed admm_g 1 [0] [2] [1] := by
  constructor
  · intro u hu
    obtain ⟨t, rfl⟩ : ∃ t, u = [t] := by
      cases u with
      | nil => simp at hu
      | cons a u' =>
          cases u' with
          | nil => exact ⟨a, rfl⟩
          | cons b u'' => simp at hu
    have h1 : w_obj admm_g 1 [0] [2] [1] = 1 := by
      norm_num [w_obj, admm_g, norm2sq, vsub, vdiv]
    have h2 : w_obj admm_g 1 [0] [2] [t] = t ^ 2 / 2 + (t - 2) ^ 2 / 2 := by
      norm_num [w_obj, admm_g, norm2sq, vsub, vdiv]
      ring
    rw [h1, h2]
    nlinarith [sq_nonneg (t - 1)]
  · norm_num [w_obj_claimed, admm_g, norm2sq, vsub, vadd, vdiv]

/-- C2 amended: the w-update objective the source hands to the sub-solver is
`g(u) + (ρ/2)‖u − w̃ − λ/ρ‖₂²` — minus sign on the dual term, matching the
source's own update equations — so the w-update sets `w` to the minimizer of
that objective; for the source's `g(w) = ‖w‖²/2` the minimizer over vectors of
the common length is `wStar = (ρ/(1+ρ))·(w̃ + λ/ρ)`. -/
theorem w_update_objective_amended_ok (rho : ℚ) (hrho : 0 < rho) :
    (∀ (g : List ℚ → ℚ) (wt lam u : List ℚ),
      w_obj g rho wt lam u = w_obj_amended g rho wt lam u)
    ∧ (∀ (wt lam u : List ℚ), lam.length = wt.length → u.length = wt.length →
      w_obj_amended admm_g rho wt lam (wStar rho wt lam)
        ≤ w_obj_amended admm_g rho wt lam u) := by
  constructor
  · intro g wt lam u
    exact w_obj_eq_amended g rho wt lam u
  · intro wt lam u hl hu
    rw [← w_obj_eq_amended, ← w_obj_eq_amended]
    exact w_obj_min rho hrho wt lam u hl hu

theorem w_update_objective_amended_ok_witness :
    0 < (1 : ℚ) ∧
      w_obj admm_g 1 [0] [2] [1] = w_obj_amended admm_g 1 [0] [2] [1] ∧
      w_obj_amended admm_g 1 [0] [2] (wStar 1 [0] [2])
        ≤ w_obj_amended admm_g 1 [0] [2] [7] :=
  ⟨by norm_num,
    (w_update_objective_amended_ok 1 (by norm_num)).1 admm_g [0] [2] [1],
    (w_update_objective_amended_ok 1 (by norm_num)).2 [0] [2] [7] rfl rfl⟩

/-- C6: the ADMM loop as written inspects no sub-solver status: when the
external sub-solver fails (modelled by returning `none`), the iteration
silently keeps the stale `w̃` and `w`, still performs the dual update from
those stale values, and hands the state to the next iteration — the loop's
result type has no failure signal at all, so no `SubproblemFailed` condition
naming a block and an iteration index is ever raised. -/
theorem admm_silent_stale_continuation :
    (∀ (f g : List ℚ → ℚ) (rho : ℚ) (wt w lam : List ℚ),
      admm_iteration (fun _ => none) f g rho (wt, w, lam)
        = (wt, w, vadd lam (smul rho (vsub wt w))))
    ∧ admm_iteration (fun _ => none) (admm_f [[1]] [1]) admm_g 1 ([3], [4], [0])
        = ([3], [4], [-1]) := by
  constructor
  · intro f g rho wt w lam
    rfl
  · norm_num [admm_iteration, vadd, smul, vsub]
